import Mathlib

/-!
Verification of the yggdrasil formatted channel / RPC interface

Shallow embedding of `src/yggdrasil/interface/YggInterface.hpp` (the C++
wrapper classes `YggInput`, `YggOutput`, `YggRpc`, `YggRpcServer`,
`YggRpcClient`) together with a model of the underlying C layer
(`YggInterface.h`: `ygg_free`, `ygg_send`, `ygg_send_nolimit`, `ygg_recv`,
`ygg_recv_nolimit`, `vyggSend`, `vcommRecv`, `vyggRecv`, `vrpcCall`,
`vrpcCallRealloc`, `ygg_send_eof`).  The C layer is not part of the
repository's sources, so those functions are modelled from the
specification (each such definition says so in its doc comment); the C++
wrapper methods are translated directly from the header.

Bytes are modelled as natural numbers (values `< 256` by construction),
messages as lists of bytes, and machine-integer conversions as arithmetic
modulo `2^w` with explicit widths.
-/

namespace Ygg

/-- Error kinds surfaced by the core protocol (spec §7). -/
inductive YggError where
  | EncodingError
  | TruncatedMessage
  | BufferTooSmall
  | AllocationError
  | MessageTooLarge
  | ChannelClosed
  | ArgumentCountMismatch
  | TransportFailure
  deriving DecidableEq, Repr

/-- Little-endian decomposition of a natural number into `k` bytes. -/
def natToBytesLE : Nat → Nat → List Nat
  | 0, _ => []
  | k + 1, n => (n % 256) :: natToBytesLE k (n / 256)

/-- Little-endian recomposition of a byte list into a natural number. -/
def bytesToNatLE : List Nat → Nat
  | [] => 0
  | b :: bs => b + 256 * bytesToNatLE bs

/-- Two's-complement interpretation of an 8-byte little-endian block. -/
def decodeIntLE (bs : List Nat) : Int :=
  let m := bytesToNatLE bs
  if m < 2 ^ 63 then (m : Int) else (m : Int) - 2 ^ 64

/-- 8-byte two's-complement little-endian encoding of an integer
(reduction modulo `2^64`, as a C `int64_t` store). -/
def encodeIntLE (n : Int) : List Nat :=
  natToBytesLE 8 (n % (2 : Int) ^ 64).toNat

/-- Field kinds of a format descriptor (spec §3: integer, floating point,
fixed text, variable-length bytes, nested array). -/
inductive FieldKind where
  | intK
  | doubleK
  | fixedText (width : Nat)
  | varBytes
  | arrayK
  deriving DecidableEq, Repr

/-- Typed field values produced by / consumed by the codec (spec §9:
an ordered, heterogeneous sequence of tagged values).  A floating point
value is carried by its 64-bit pattern, so encoding is exact. -/
inductive FieldVal where
  | intV (n : Int)
  | doubleV (bits : Nat)
  | textV (s : List Nat)
  | bytesV (b : List Nat)
  | arrayV (xs : List Int)
  deriving DecidableEq, Repr

/-- Whether a value is representable in a field kind (spec §4.1: `pack`
fails with `EncodingError` if a value cannot be represented in its
field's kind). -/
def representableField : FieldKind → FieldVal → Bool
  | .intK, .intV n => decide (-(2 ^ 63) ≤ n) && decide (n < 2 ^ 63)
  | .doubleK, .doubleV bits => decide (bits < 2 ^ 64)
  | .fixedText w, .textV s => decide (s.length = w) && s.all (· < 256)
  | .varBytes, .bytesV b => decide (b.length < 2 ^ 64) && b.all (· < 256)
  | .arrayK, .arrayV xs =>
      decide (xs.length < 2 ^ 64) &&
      xs.all (fun n => decide (-(2 ^ 63) ≤ n) && decide (n < 2 ^ 63))
  | _, _ => false

/-- Modelled from the spec (§4.1 `pack`, one field): encode one value
against one field specifier; `none` is `EncodingError`.  The C encoder
(part of `serialize_*` behind `YggInterface.h`) is not in the repository
sources. -/
def encodeField : FieldKind → FieldVal → Option (List Nat)
  | .intK, .intV n =>
      if -(2 ^ 63) ≤ n ∧ n < 2 ^ 63 then some (encodeIntLE n) else none
  | .doubleK, .doubleV bits =>
      if bits < 2 ^ 64 then some (natToBytesLE 8 bits) else none
  | .fixedText w, .textV s =>
      if s.length = w ∧ ∀ x ∈ s, x < 256 then some s else none
  | .varBytes, .bytesV b =>
      if b.length < 2 ^ 64 ∧ ∀ x ∈ b, x < 256 then
        some (natToBytesLE 8 b.length ++ b)
      else none
  | .arrayK, .arrayV xs =>
      if xs.length < 2 ^ 64 then
        some (natToBytesLE 8 xs.length ++ xs.flatMap encodeIntLE)
      else none
  | _, _ => none

/-- Decode `c` consecutive 8-byte integers (helper for array fields). -/
def decodeInts : Nat → List Nat → Option (List Int × List Nat)
  | 0, bs => some ([], bs)
  | c + 1, bs =>
      if 8 ≤ bs.length then
        match decodeInts c (bs.drop 8) with
        | some (xs, rest) => some (decodeIntLE (bs.take 8) :: xs, rest)
        | none => none
      else none

/-- Modelled from the spec (§4.1 `unpack`, one field): decode one field
from the front of a byte sequence, returning the value and the remaining
bytes; `none` means the message is truncated for this descriptor.  The C
decoder behind `YggInterface.h` is not in the repository sources. -/
def decodeField : FieldKind → List Nat → Option (FieldVal × List Nat)
  | .intK, bs =>
      if 8 ≤ bs.length then some (.intV (decodeIntLE (bs.take 8)), bs.drop 8)
      else none
  | .doubleK, bs =>
      if 8 ≤ bs.length then some (.doubleV (bytesToNatLE (bs.take 8)), bs.drop 8)
      else none
  | .fixedText w, bs =>
      if w ≤ bs.length then some (.textV (bs.take w), bs.drop w) else none
  | .varBytes, bs =>
      if 8 ≤ bs.length then
        if bytesToNatLE (bs.take 8) ≤ (bs.drop 8).length then
          some (.bytesV ((bs.drop 8).take (bytesToNatLE (bs.take 8))),
                (bs.drop 8).drop (bytesToNatLE (bs.take 8)))
        else none
      else none
  | .arrayK, bs =>
      if 8 ≤ bs.length then
        match decodeInts (bytesToNatLE (bs.take 8)) (bs.drop 8) with
        | some (xs, rest) => some (.arrayV xs, rest)
        | none => none
      else none

/-- Modelled from the spec (§4.1): `pack` walks the descriptor in order,
consuming one value per field, producing one contiguous byte sequence;
`none` is `EncodingError` (the byte sequence is never partially valid on
failure).  The C packer behind `YggInterface.h` is not in the repository
sources. -/
def packList : List FieldKind → List FieldVal → Option (List Nat)
  | [], [] => some []
  | k :: ks, v :: vs =>
      match encodeField k v, packList ks vs with
      | some p, some ps => some (p ++ ps)
      | _, _ => none
  | _, _ => none

/-- Modelled from the spec (§4.1): value-level `unpack` walks the
descriptor, decoding each field from the front of the byte sequence;
trailing unconsumed bytes are ignored.  `none` is `TruncatedMessage`. -/
def unpackList : List FieldKind → List Nat → Option (List FieldVal)
  | [], _ => some []
  | k :: ks, bs =>
      match decodeField k bs with
      | some (v, rest) => (unpackList ks rest).map (v :: ·)
      | none => none

/-- Whether a value tuple is representable under a descriptor
(field-wise, in lock-step). -/
def representableList : List FieldKind → List FieldVal → Bool
  | [], [] => true
  | k :: ks, v :: vs => representableField k v && representableList ks vs
  | _, _ => false

/-- Modelled from the spec (§4.3): the inline transport size limit
`YGG_MSG_MAX` (defined in `YggInterface.h`, which is not in the
repository sources; the spec fixes no concrete value, only that it is a
positive bound — we fix 64). -/
def YGG_MSG_MAX : Nat := 64

/-- Modelled from the spec (§4.3, §6 wire shape): split a payload into
chunks of at most `YGG_MSG_MAX` bytes, each prefixed with a continuation
flag (1 = more chunks follow, 0 = final) and the this-chunk length. -/
def chunkEncode (p : List Nat) : List (List Nat) :=
  if p.length ≤ YGG_MSG_MAX then
    [0 :: (natToBytesLE 8 p.length ++ p)]
  else
    (1 :: (natToBytesLE 8 YGG_MSG_MAX ++ p.take YGG_MSG_MAX)) ::
      chunkEncode (p.drop YGG_MSG_MAX)
termination_by p.length
decreasing_by simp only [List.length_drop]; simp only [YGG_MSG_MAX] at *; omega

/-- Modelled from the spec (§4.3, §6): reassemble a chunked message from
the front of the transport queue, consuming chunks until the final one;
returns the payload and the unconsumed queue. -/
def recvChunks : List (List Nat) → Option (List Nat × List (List Nat))
  | [] => none
  | c :: cs =>
    match c with
    | [] => none
    | flag :: rest =>
      if (rest.take 8).length = 8 ∧
          (rest.drop 8).length = bytesToNatLE (rest.take 8) then
        if flag = 0 then some (rest.drop 8, cs)
        else
          match recvChunks cs with
          | some (tail, q) => some (rest.drop 8 ++ tail, q)
          | none => none
      else none

/-- A directional channel handle (spec §3, §4.2): whether the transport
resource has been released, the bound format descriptor, the transport
queue of raw messages, and the bytes the allocator can still provide for
growable destinations. -/
structure CommHandle where
  closed : Bool
  fmt : List FieldKind
  queue : List (List Nat)
  heap : Nat
  deriving DecidableEq, Repr

/-- Modelled from the spec (§3, §5): `ygg_free` releases the handle's
transport resource; the handle records whether release already occurred,
so a repeated call is a no-op.  Returns the updated handle and the
number of resource releases actually performed (0 or 1). -/
def ygg_free (s : CommHandle) : CommHandle × Nat :=
  if s.closed then (s, 0) else ({ s with closed := true }, 1)

/-- Modelled from the spec (§4.2, §4.3 bounded send): raw bounded send;
a payload over the inline limit is a hard `MessageTooLarge` error with
no partial send. -/
def ygg_send (s : CommHandle) (data : List Nat) :
    Except YggError Nat × CommHandle :=
  if s.closed then (.error .ChannelClosed, s)
  else if YGG_MSG_MAX < data.length then (.error .MessageTooLarge, s)
  else (.ok 0, { s with queue := s.queue ++ [data] })

/-- Modelled from the spec (§4.3 unbounded send): chunk the payload and
send every chunk. -/
def ygg_send_nolimit (s : CommHandle) (data : List Nat) :
    Except YggError Nat × CommHandle :=
  if s.closed then (.error .ChannelClosed, s)
  else (.ok 0, { s with queue := s.queue ++ chunkEncode data })

/-- Modelled from the spec (§4.2): raw bounded receive into a caller
buffer of capacity `len`. -/
def ygg_recv (s : CommHandle) (len : Nat) :
    Except YggError (List Nat) × CommHandle :=
  if s.closed then (.error .ChannelClosed, s)
  else
    match s.queue with
    | [] => (.error .TransportFailure, s)
    | m :: rest =>
        if m.length ≤ len then (.ok m, { s with queue := rest })
        else (.error .BufferTooSmall, s)

/-- Modelled from the spec (§4.3 unbounded receive): reassemble a chunked
message, always growing an internal buffer rather than trusting the
caller's capacity. -/
def ygg_recv_nolimit (s : CommHandle) :
    Except YggError (List Nat) × CommHandle :=
  if s.closed then (.error .ChannelClosed, s)
  else
    match recvChunks s.queue with
    | some (p, q) => (.ok p, { s with queue := q })
    | none => (.error .TransportFailure, s)

/-- Modelled from the spec (§6): the reserved EOF sentinel payload, a
distinguished value reserved by the protocol.  It carries a tag outside
the byte alphabet (the codec emits only bytes `< 256`), so it is never
producible by normal formatted encoding. -/
def EOF_MSG : List Nat := [256]

/-- Modelled from the spec (§4.2 `send_eof`): transmit the reserved EOF
sentinel on an Output endpoint; the endpoint remains `Open` (it is not
closed by this call). -/
def ygg_send_eof (s : CommHandle) : Except YggError Nat × CommHandle :=
  ygg_send s EOF_MSG

/-- Modelled from the spec (§4.2 formatted send): check the handle is
open and the declared argument count, pack the values with the bound
descriptor, then perform the byte-level transfer. -/
def vyggSend (s : CommHandle) (nargs : Int) (args : List FieldVal) :
    Except YggError Nat × CommHandle :=
  if s.closed then (.error .ChannelClosed, s)
  else if nargs ≠ (args.length : Int) then (.error .ArgumentCountMismatch, s)
  else
    match packList s.fmt args with
    | none => (.error .EncodingError, s)
    | some msg => ygg_send s msg

/-- A caller-supplied destination buffer: current capacity in bytes and
the decoded value written into it, if any (spec §3 Destination Set). -/
structure Dest where
  cap : Nat
  val : Option FieldVal
  deriving DecidableEq, Repr

/-- Byte size a decoded value requires in its destination. -/
def fieldValSize : FieldVal → Nat
  | .intV _ => 8
  | .doubleV _ => 8
  | .textV s => s.length
  | .bytesV b => b.length
  | .arrayV xs => 8 * xs.length

/-- Result of an unpack into destinations: the count of fields filled,
the updated destinations, and the failure kind if any (spec §4.1 returns
both the fill count and a status). -/
structure UnpackOut where
  filled : Nat
  dests : List Dest
  err : Option YggError
  deriving DecidableEq, Repr

/-- Modelled from the spec (§4.1 `unpack` with destinations): walk the
descriptor in lock-step with the destination list.  Fixed mode: a
destination too small for a decoded field yields `BufferTooSmall` and
decoding stops at that field (fields already written remain).  Growable
mode: the destination is grown to the needed size; `AllocationError`
(fatal) if the allocator cannot provide it. -/
def unpackInto (realloc : Bool) (heap : Nat) :
    List FieldKind → List Nat → List Dest → UnpackOut
  | [], _, dests => ⟨0, dests, none⟩
  | _ :: _, _, [] => ⟨0, [], some .ArgumentCountMismatch⟩
  | k :: ks, bs, d :: ds =>
    match decodeField k bs with
    | none => ⟨0, d :: ds, some .TruncatedMessage⟩
    | some (v, rest) =>
      if fieldValSize v ≤ d.cap then
        let out := unpackInto realloc heap ks rest ds
        ⟨out.filled + 1, { d with val := some v } :: out.dests, out.err⟩
      else if realloc then
        if fieldValSize v ≤ heap then
          let out := unpackInto realloc heap ks rest ds
          ⟨out.filled + 1, ⟨fieldValSize v, some v⟩ :: out.dests, out.err⟩
        else ⟨0, d :: ds, some .AllocationError⟩
      else ⟨0, d :: ds, some .BufferTooSmall⟩

/-- Modelled from the spec (§4.2 formatted receive): check open, check
the declared destination count, pop one raw message from the transport,
and unpack it into the destinations with the given reallocation flag
(0 = fixed, nonzero = growable), as `vcommRecv(_pi, allow_realloc,
nargs, va)` behind `YggInterface.h`. -/
def vcommRecv (s : CommHandle) (allow_realloc : Nat) (nargs : Nat)
    (dests : List Dest) : UnpackOut × CommHandle :=
  if s.closed then (⟨0, dests, some .ChannelClosed⟩, s)
  else if nargs ≠ dests.length then
    (⟨0, dests, some .ArgumentCountMismatch⟩, s)
  else
    match s.queue with
    | [] => (⟨0, dests, some .TransportFailure⟩, s)
    | m :: rest =>
        (unpackInto (allow_realloc != 0) s.heap s.fmt m dests,
         { s with queue := rest })

/-- Modelled from the spec (§4.2/§4.3): formatted unbounded receive
(`vyggRecv` behind `YggInterface.h`); the declared argument count is a
signed int, passed through without conversion. -/
def vyggRecv (s : CommHandle) (allow_realloc : Nat) (nargs : Int)
    (dests : List Dest) : UnpackOut × CommHandle :=
  if s.closed then (⟨0, dests, some .ChannelClosed⟩, s)
  else if nargs ≠ (dests.length : Int) then
    (⟨0, dests, some .ArgumentCountMismatch⟩, s)
  else
    match recvChunks s.queue with
    | none => (⟨0, dests, some .TransportFailure⟩, s)
    | some (p, q) =>
        (unpackInto (allow_realloc != 0) s.heap s.fmt p dests,
         { s with queue := q })

/-- Width in bits of `size_t` on the modelled platform. -/
def SIZE_T_BITS : Nat := 64

/-- The C conversion `(size_t)nargs` performed by
`size_t nargs_copy = (size_t)nargs;` in `YggInput::recv` (header line
79) and `YggInput::recvRealloc` (line 98): reduction modulo `2^64`,
with no validation. -/
def castIntToSizeT (n : Int) : Nat := (n % (2 : Int) ^ SIZE_T_BITS).toNat

namespace YggInput

/-- Source method `YggInput::_destroy_pi` (header line 41): `ygg_free(&_pi)`. -/
def destroy_pi (s : CommHandle) : CommHandle × Nat := ygg_free s

/-- Source method `YggInput::~YggInput` (header line 47): calls `_destroy_pi`. -/
def destructor (s : CommHandle) : CommHandle × Nat := destroy_pi s

/-- Source method `YggInput::recv(char*, size_t)` (header line 66): raw bounded
receive via `ygg_recv`. -/
def recv_raw (s : CommHandle) (len : Nat) :
    Except YggError (List Nat) × CommHandle := ygg_recv s len

/-- Source method `YggInput::recv(const int nargs, ...)` (header lines 78-85): casts
`nargs` to `size_t` and calls `vcommRecv` with reallocation flag 0. -/
def recv (s : CommHandle) (nargs : Int) (dests : List Dest) :
    UnpackOut × CommHandle :=
  vcommRecv s 0 (castIntToSizeT nargs) dests

/-- Source method `YggInput::recvRealloc(const int nargs, ...)` (header lines 97-104):
casts `nargs` to `size_t` and calls `vcommRecv` with reallocation
flag 1. -/
def recvRealloc (s : CommHandle) (nargs : Int) (dests : List Dest) :
    UnpackOut × CommHandle :=
  vcommRecv s 1 (castIntToSizeT nargs) dests

/-- Source method `YggInput::recv_nolimit(char**, size_t)` (header line 115): raw
unbounded receive via `ygg_recv_nolimit`. -/
def recv_nolimit_raw (s : CommHandle) :
    Except YggError (List Nat) × CommHandle := ygg_recv_nolimit s

/-- Source method `YggInput::recv_nolimit(const int nargs, ...)` (header lines
129-135): passes `nargs` to `vyggRecv` as a signed int (no cast), with
reallocation flag 0. -/
def recv_nolimit (s : CommHandle) (nargs : Int) (dests : List Dest) :
    UnpackOut × CommHandle :=
  vyggRecv s 0 nargs dests

end YggInput

namespace YggOutput

/-- Source method `YggOutput::_destroy_pi` (header line 173): `ygg_free(&_pi)`. -/
def destroy_pi (s : CommHandle) : CommHandle × Nat := ygg_free s

/-- Source method `YggOutput::~YggOutput` (header line 179): calls `_destroy_pi`. -/
def destructor (s : CommHandle) : CommHandle × Nat := destroy_pi s

/-- Source method `YggOutput::send(const char*, size_t)` (header lines 197-199):
raw bounded send via `ygg_send`. -/
def send_raw (s : CommHandle) (data : List Nat) :
    Except YggError Nat × CommHandle := ygg_send s data

/-- Source method `YggOutput::send(const int nargs, ...)` (header lines 209-215):
formatted variadic send; calls `vyggSend(_pi, nargs, va)`. -/
def send (s : CommHandle) (nargs : Int) (args : List FieldVal) :
    Except YggError Nat × CommHandle := vyggSend s nargs args

/-- Source method `YggOutput::send_nolimit(const char*, size_t)` (header lines
224-226): raw unbounded send via `ygg_send_nolimit`. -/
def send_nolimit_raw (s : CommHandle) (data : List Nat) :
    Except YggError Nat × CommHandle := ygg_send_nolimit s data

/-- Source method `YggOutput::send_nolimit(const int nargs, ...)` (header lines
236-242): formatted variadic send; calls the same
`vyggSend(_pi, nargs, va)`. -/
def send_nolimit (s : CommHandle) (nargs : Int) (args : List FieldVal) :
    Except YggError Nat × CommHandle := vyggSend s nargs args

/-- Source method `YggOutput::send_eof` (header line 248): `ygg_send_eof(_pi)`. -/
def send_eof (s : CommHandle) : Except YggError Nat × CommHandle :=
  ygg_send_eof s

end YggOutput

/-- An RPC session (spec §3): exactly one Output handle (requests) and
one Input handle (responses). -/
structure RpcHandles where
  out_h : CommHandle
  in_h : CommHandle
  deriving DecidableEq, Repr

/-- Whether the session's two resources are already fully released. -/
def RpcHandles.released (s : RpcHandles) : Bool :=
  s.out_h.closed && s.in_h.closed

/-- Modelled from the spec (§3, §5): `ygg_free` applied to an RPC
session struct releases each of the two underlying channel handles only
if its release has not already occurred.  Returns the updated session
and the number of resource releases performed on the output and input
handles respectively. -/
def ygg_free_rpc (s : RpcHandles) : RpcHandles × Nat × Nat :=
  (⟨(ygg_free s.out_h).1, (ygg_free s.in_h).1⟩,
   (ygg_free s.out_h).2, (ygg_free s.in_h).2)

namespace YggRpc

/-- Source method `YggRpc::_destroy_pi` (header line 270): `ygg_free(&_pi)`. -/
def destroy_pi (s : RpcHandles) : RpcHandles × Nat × Nat := ygg_free_rpc s

/-- Source method `YggRpc::~YggRpc` (header line 276): calls `_destroy_pi`. -/
def destructor (s : RpcHandles) : RpcHandles × Nat × Nat := destroy_pi s

end YggRpc

namespace YggRpcServer

/-- Destruction of a `YggRpcServer` object, by C++ semantics: the body
of `~YggRpcServer` (header line 368) calls `_destroy_pi`, then the base
destructor `~YggRpc` (header line 276) runs and calls `_destroy_pi`
again.  Returns the final state and the total numbers of resource
releases performed on the (output, input) handles. -/
def destruct (s : RpcHandles) : RpcHandles × Nat × Nat :=
  ((YggRpc.destroy_pi (YggRpc.destroy_pi s).1).1,
   (YggRpc.destroy_pi s).2.1 + (YggRpc.destroy_pi (YggRpc.destroy_pi s).1).2.1,
   (YggRpc.destroy_pi s).2.2 + (YggRpc.destroy_pi (YggRpc.destroy_pi s).1).2.2)

/-- The trace of `ygg_free` applications during destruction of a
`YggRpcServer`: for each application in order, whether its argument
session was already fully released at that moment. -/
def destructFreeTrace (s : RpcHandles) : List Bool :=
  [s.released, ((YggRpc.destroy_pi s).1).released]

end YggRpcServer

namespace YggRpcClient

/-- Destruction of a `YggRpcClient` object, by C++ semantics: the body
of `~YggRpcClient` (header line 399) calls `_destroy_pi`, then the base
destructor `~YggRpc` (header line 276) runs and calls `_destroy_pi`
again. -/
def destruct (s : RpcHandles) : RpcHandles × Nat × Nat :=
  ((YggRpc.destroy_pi (YggRpc.destroy_pi s).1).1,
   (YggRpc.destroy_pi s).2.1 + (YggRpc.destroy_pi (YggRpc.destroy_pi s).1).2.1,
   (YggRpc.destroy_pi s).2.2 + (YggRpc.destroy_pi (YggRpc.destroy_pi s).1).2.2)

/-- The trace of `ygg_free` applications during destruction of a
`YggRpcClient`: for each application in order, whether its argument
session was already fully released at that moment. -/
def destructFreeTrace (s : RpcHandles) : List Bool :=
  [s.released, ((YggRpc.destroy_pi s).1).released]

end YggRpcClient

/-- Transport stub environment for an RPC call: optional forced failures
for the send and the receive, and counters of transport operations
attempted (spec §8's call counter on the transport stub). -/
structure CallEnv where
  sendErr : Option YggError
  recvErr : Option YggError
  sendOps : Nat
  recvOps : Nat
  deriving DecidableEq, Repr

/-- Modelled from the spec (§4.4 client `call` / `callRealloc`, shared
core): check the total argument count against request fields plus
response fields before any transport activity; pack the request block;
attempt the transport send (counting it); only if the send succeeded,
attempt the response receive (counting it) with the given reallocation
flag; report the first failure. -/
def vrpcCallCore (realloc : Nat) (s : RpcHandles) (env : CallEnv)
    (nargs : Int) (args : List FieldVal) (dests : List Dest) :
    Except YggError Nat × RpcHandles × CallEnv :=
  if nargs ≠ ((s.out_h.fmt.length : Int) + (s.in_h.fmt.length : Int)) then
    (.error .ArgumentCountMismatch, s, env)
  else
    match packList s.out_h.fmt args with
    | none => (.error .EncodingError, s, env)
    | some msg =>
      let env1 := { env with sendOps := env.sendOps + 1 }
      match env.sendErr with
      | some e => (.error e, s, env1)
      | none =>
        if s.out_h.closed then (.error .ChannelClosed, s, env1)
        else if YGG_MSG_MAX < msg.length then
          (.error .MessageTooLarge, s, env1)
        else
          let s1 : RpcHandles :=
            { s with out_h := { s.out_h with
                                queue := s.out_h.queue ++ [msg] } }
          let env2 := { env1 with recvOps := env1.recvOps + 1 }
          match env.recvErr with
          | some e => (.error e, s1, env2)
          | none =>
            match vcommRecv s.in_h realloc dests.length dests with
            | (out, i1) =>
              match out.err with
              | some e => (.error e, { s1 with in_h := i1 }, env2)
              | none => (.ok out.filled, { s1 with in_h := i1 }, env2)

/-- Modelled from the spec (§4.4): `vrpcCall`, the fixed-destination
variant behind `YggRpcClient::call`. -/
def vrpcCall (s : RpcHandles) (env : CallEnv) (nargs : Int)
    (args : List FieldVal) (dests : List Dest) :
    Except YggError Nat × RpcHandles × CallEnv :=
  vrpcCallCore 0 s env nargs args dests

/-- Modelled from the spec (§4.4): `vrpcCallRealloc`, identical except
the response half uses the growable destination policy. -/
def vrpcCallRealloc (s : RpcHandles) (env : CallEnv) (nargs : Int)
    (args : List FieldVal) (dests : List Dest) :
    Except YggError Nat × RpcHandles × CallEnv :=
  vrpcCallCore 1 s env nargs args dests

namespace YggRpcClient

/-- Source method `YggRpcClient::call` (header lines 414-421): `vrpcCall(pi(), nargs,
va)`. -/
def call (s : RpcHandles) (env : CallEnv) (nargs : Int)
    (args : List FieldVal) (dests : List Dest) :
    Except YggError Nat × RpcHandles × CallEnv :=
  vrpcCall s env nargs args dests

/-- Source method `YggRpcClient::callRealloc` (header lines 438-445):
`vrpcCallRealloc(pi(), nargs, va)`. -/
def callRealloc (s : RpcHandles) (env : CallEnv) (nargs : Int)
    (args : List FieldVal) (dests : List Dest) :
    Except YggError Nat × RpcHandles × CallEnv :=
  vrpcCallRealloc s env nargs args dests

end YggRpcClient

/-- Destination capacities suffice for a value tuple (fixed mode needs
every destination pre-sized to the decoded field's size). -/
def capsOk : List FieldVal → List Dest → Bool
  | [], [] => true
  | v :: vs, d :: ds => decide (fieldValSize v ≤ d.cap) && capsOk vs ds
  | _, _ => false

/-- Write a value tuple into a destination list, field by field. -/
def writeVals : List FieldVal → List Dest → List Dest
  | v :: vs, d :: ds => { d with val := some v } :: writeVals vs ds
  | _, ds => ds

/-! ## Theorems -/

theorem natToBytesLE_length (k n : Nat) : (natToBytesLE k n).length = k := by
  induction k generalizing n with
  | zero => rfl
  | succ k ih => simp [natToBytesLE, ih]

theorem bytesToNatLE_natToBytesLE (k n : Nat) (h : n < 256 ^ k) :
    bytesToNatLE (natToBytesLE k n) = n := by
  induction k generalizing n with
  | zero => simp [natToBytesLE, bytesToNatLE]; omega
  | succ k ih =>
    simp only [natToBytesLE, bytesToNatLE]
    rw [ih (n / 256) (by
      have : 256 ^ (k + 1) = 256 ^ k * 256 := by ring
      omega)]
    omega

theorem bytesToNatLE_lt (k : Nat) (bs : List Nat) (hl : bs.length = k)
    (hb : ∀ b ∈ bs, b < 256) : bytesToNatLE bs < 256 ^ k := by
  induction bs generalizing k with
  | nil => subst hl; simp [bytesToNatLE]
  | cons b bs ih =>
    cases k with
    | zero => simp at hl
    | succ k =>
      simp only [List.length_cons, Nat.succ.injEq] at hl
      have hb0 : b < 256 := hb b (by simp)
      have := ih k hl (fun x hx => hb x (by simp [hx]))
      simp only [bytesToNatLE]
      have : 256 ^ (k + 1) = 256 * 256 ^ k := by ring
      omega

theorem encodeIntLE_length (n : Int) : (encodeIntLE n).length = 8 :=
  natToBytesLE_length 8 _

theorem decodeIntLE_encodeIntLE (n : Int) (h1 : -(2 ^ 63) ≤ n) (h2 : n < 2 ^ 63) :
    decodeIntLE (encodeIntLE n) = n := by
  unfold decodeIntLE encodeIntLE
  have hmod : (n % (2 : Int) ^ 64) = if 0 ≤ n then n else n + 2 ^ 64 := by
    split
    · rw [Int.emod_eq_of_lt (by assumption) (by norm_num; omega)]
    · rw [show n % (2 : Int) ^ 64 = (n + 2 ^ 64) % 2 ^ 64 by omega,
        Int.emod_eq_of_lt (by norm_num; omega) (by norm_num; omega)]
  rw [hmod]
  split
  · rw [bytesToNatLE_natToBytesLE 8 _ (by norm_num; omega)]
    simp only
    rw [if_pos (by norm_num; omega)]
    omega
  · rw [bytesToNatLE_natToBytesLE 8 _ (by norm_num; omega)]
    simp only
    rw [if_neg (by norm_num; omega)]
    omega

theorem take_length_append {α : Type} (xs ys : List α) (k : Nat) (h : xs.length = k) :
    (xs ++ ys).take k = xs := by
  subst h; exact List.take_left xs ys

theorem drop_length_append {α : Type} (xs ys : List α) (k : Nat) (h : xs.length = k) :
    (xs ++ ys).drop k = ys := by
  subst h; exact List.drop_left xs ys

theorem decodeInts_encode (xs : List Int) (rest : List Nat)
    (h : ∀ x ∈ xs, -(2 ^ 63) ≤ x ∧ x < 2 ^ 63) :
    decodeInts xs.length (xs.flatMap encodeIntLE ++ rest) = some (xs, rest) := by
  induction xs with
  | nil => simp [decodeInts]
  | cons x xs ih =>
    have hx := h x (by simp)
    simp only [List.flatMap_cons, List.length_cons, List.append_assoc]
    rw [decodeInts]
    rw [if_pos (by simp [encodeIntLE_length])]
    rw [drop_length_append _ _ 8 (encodeIntLE_length x)]
    rw [ih (fun y hy => h y (by simp [hy]))]
    rw [take_length_append _ _ 8 (encodeIntLE_length x)]
    rw [decodeIntLE_encodeIntLE x hx.1 hx.2]

theorem pow_256_8 : (256 : Nat) ^ 8 = 2 ^ 64 := by norm_num

theorem decodeField_encode_int (n : Int) (rest : List Nat)
    (h1 : -(2 ^ 63) ≤ n) (h2 : n < 2 ^ 63) :
    decodeField .intK (encodeIntLE n ++ rest) = some (.intV n, rest) := by
  simp only [decodeField]
  rw [if_pos (by simp [encodeIntLE_length]),
    take_length_append _ _ 8 (encodeIntLE_length n),
    drop_length_append _ _ 8 (encodeIntLE_length n),
    decodeIntLE_encodeIntLE n h1 h2]

theorem decodeField_encode_double (bits : Nat) (rest : List Nat) (h : bits < 2 ^ 64) :
    decodeField .doubleK (natToBytesLE 8 bits ++ rest) = some (.doubleV bits, rest) := by
  simp only [decodeField]
  rw [if_pos (by simp [natToBytesLE_length]),
    take_length_append _ _ 8 (natToBytesLE_length 8 bits),
    drop_length_append _ _ 8 (natToBytesLE_length 8 bits),
    bytesToNatLE_natToBytesLE 8 bits (by rw [pow_256_8]; exact h)]

theorem decodeField_encode_text (s rest : List Nat) :
    decodeField (.fixedText s.length) (s ++ rest) = some (.textV s, rest) := by
  simp only [decodeField]
  rw [if_pos (by simp),
    take_length_append _ _ s.length rfl,
    drop_length_append _ _ s.length rfl]

theorem decodeField_encode_bytes (b rest : List Nat) (h : b.length < 2 ^ 64) :
    decodeField .varBytes ((natToBytesLE 8 b.length ++ b) ++ rest)
      = some (.bytesV b, rest) := by
  simp only [decodeField, List.append_assoc]
  rw [take_length_append _ _ 8 (natToBytesLE_length 8 b.length),
    drop_length_append _ _ 8 (natToBytesLE_length 8 b.length),
    bytesToNatLE_natToBytesLE 8 b.length (by rw [pow_256_8]; exact h),
    if_pos (by simp [natToBytesLE_length]),
    if_pos (by simp),
    take_length_append _ _ b.length rfl,
    drop_length_append _ _ b.length rfl]

theorem decodeField_encode_array (xs : List Int) (rest : List Nat)
    (hl : xs.length < 2 ^ 64) (h : ∀ x ∈ xs, -(2 ^ 63) ≤ x ∧ x < 2 ^ 63) :
    decodeField .arrayK ((natToBytesLE 8 xs.length ++ xs.flatMap encodeIntLE) ++ rest)
      = some (.arrayV xs, rest) := by
  simp only [decodeField, List.append_assoc]
  rw [take_length_append _ _ 8 (natToBytesLE_length 8 xs.length),
    drop_length_append _ _ 8 (natToBytesLE_length 8 xs.length),
    bytesToNatLE_natToBytesLE 8 xs.length (by rw [pow_256_8]; exact hl),
    decodeInts_encode xs rest h,
    if_pos (by simp [natToBytesLE_length])]

/-- Round trip of one field: decoding the encoding of a representable
value yields the value back, with the remaining bytes untouched. -/
theorem decodeField_encodeField (k : FieldKind) (v : FieldVal) (p rest : List Nat)
    (hr : representableField k v = true) (he : encodeField k v = some p) :
    decodeField k (p ++ rest) = some (v, rest) := by
  cases k <;> cases v <;>
      try (simp only [representableField] at hr; exact absurd hr (by decide))
  case intK.intV n =>
    simp only [representableField, Bool.and_eq_true, decide_eq_true_eq] at hr
    simp only [encodeField] at he
    rw [if_pos hr] at he
    injection he with he
    subst he
    exact decodeField_encode_int n rest hr.1 hr.2
  case doubleK.doubleV bits =>
    simp only [representableField, decide_eq_true_eq] at hr
    simp only [encodeField] at he
    rw [if_pos hr] at he
    injection he with he
    subst he
    exact decodeField_encode_double bits rest hr
  case fixedText.textV w s =>
    simp only [representableField, Bool.and_eq_true, decide_eq_true_eq,
      List.all_eq_true] at hr
    simp only [encodeField] at he
    rw [if_pos hr] at he
    injection he with he
    subst he
    rw [← hr.1]
    exact decodeField_encode_text s rest
  case varBytes.bytesV b =>
    simp only [representableField, Bool.and_eq_true, decide_eq_true_eq,
      List.all_eq_true] at hr
    simp only [encodeField] at he
    rw [if_pos hr] at he
    injection he with he
    subst he
    exact decodeField_encode_bytes b rest hr.1
  case arrayK.arrayV xs =>
    simp only [representableField, Bool.and_eq_true, decide_eq_true_eq,
      List.all_eq_true] at hr
    simp only [encodeField] at he
    rw [if_pos hr.1] at he
    injection he with he
    subst he
    exact decodeField_encode_array xs rest hr.1 (fun x hx => (hr.2 x hx))

theorem encodeField_isSome (k : FieldKind) (v : FieldVal)
    (hr : representableField k v = true) : (encodeField k v).isSome = true := by
  cases k <;> cases v <;>
      try (simp only [representableField] at hr; exact absurd hr (by decide))
  case intK.intV n =>
    simp only [representableField, Bool.and_eq_true, decide_eq_true_eq] at hr
    simp only [encodeField]
    rw [if_pos hr]
    rfl
  case doubleK.doubleV bits =>
    simp only [representableField, decide_eq_true_eq] at hr
    simp only [encodeField]
    rw [if_pos hr]
    rfl
  case fixedText.textV w s =>
    simp only [representableField, Bool.and_eq_true, decide_eq_true_eq,
      List.all_eq_true] at hr
    simp only [encodeField]
    rw [if_pos hr]
    rfl
  case varBytes.bytesV b =>
    simp only [representableField, Bool.and_eq_true, decide_eq_true_eq,
      List.all_eq_true] at hr
    simp only [encodeField]
    rw [if_pos hr]
    rfl
  case arrayK.arrayV xs =>
    simp only [representableField, Bool.and_eq_true, decide_eq_true_eq] at hr
    simp only [encodeField]
    rw [if_pos hr.1]
    rfl

theorem packList_isSome (d : List FieldKind) (vs : List FieldVal)
    (hr : representableList d vs = true) : (packList d vs).isSome = true := by
  induction d generalizing vs with
  | nil => cases vs with
    | nil => rfl
    | cons v vs => simp [representableList] at hr
  | cons k ks ih =>
    cases vs with
    | nil => simp [representableList] at hr
    | cons v vs =>
      simp only [representableList, Bool.and_eq_true] at hr
      have h1 : (encodeField k v).isSome = true := encodeField_isSome k v hr.1
      have h2 := ih vs hr.2
      simp only [packList]
      cases hp : encodeField k v with
      | none => rw [hp] at h1; simp at h1
      | some p =>
        cases hps : packList ks vs with
        | none => rw [hps] at h2; simp at h2
        | some ps => rfl

/-- Round trip of the codec on a tuple: unpacking the packed bytes of a
representable tuple (with any trailing bytes) returns the tuple. -/
theorem unpackList_packList (d : List FieldKind) (vs : List FieldVal)
    (msg extra : List Nat) (hr : representableList d vs = true)
    (hp : packList d vs = some msg) :
    unpackList d (msg ++ extra) = some vs := by
  induction d generalizing vs msg extra with
  | nil =>
    cases vs with
    | nil =>
      simp only [packList] at hp
      injection hp with hp
      subst hp
      rfl
    | cons v vs => simp [representableList] at hr
  | cons k ks ih =>
    cases vs with
    | nil => simp [representableList] at hr
    | cons v vs =>
      simp only [representableList, Bool.and_eq_true] at hr
      simp only [packList] at hp
      cases he : encodeField k v with
      | none => rw [he] at hp; exact absurd hp (by simp)
      | some p =>
        cases hps : packList ks vs with
        | none => rw [he, hps] at hp; exact absurd hp (by simp)
        | some ps =>
          rw [he, hps] at hp
          injection hp with hp
          subst hp
          simp only [unpackList, List.append_assoc]
          rw [decodeField_encodeField k v p (ps ++ extra) hr.1 he]
          show Option.map (fun x => v :: x) (unpackList ks (ps ++ extra))
            = some (v :: vs)
          rw [ih vs ps extra hr.2 hps]
          rfl

theorem recvChunks_cons_final (body : List Nat) (cs : List (List Nat))
    (h : body.length < 2 ^ 64) :
    recvChunks ((0 :: (natToBytesLE 8 body.length ++ body)) :: cs)
      = some (body, cs) := by
  simp only [recvChunks]
  rw [take_length_append _ _ 8 (natToBytesLE_length 8 body.length),
    drop_length_append _ _ 8 (natToBytesLE_length 8 body.length),
    bytesToNatLE_natToBytesLE 8 body.length (by rw [pow_256_8]; exact h)]
  rw [if_pos ⟨natToBytesLE_length 8 body.length, rfl⟩]
  simp

theorem recvChunks_cons_cont (body tail : List Nat)
    (cs q : List (List Nat)) (hlen : body.length = YGG_MSG_MAX)
    (hrec : recvChunks cs = some (tail, q)) :
    recvChunks ((1 :: (natToBytesLE 8 YGG_MSG_MAX ++ body)) :: cs)
      = some (body ++ tail, q) := by
  simp only [recvChunks]
  rw [take_length_append _ _ 8 (natToBytesLE_length 8 YGG_MSG_MAX),
    drop_length_append _ _ 8 (natToBytesLE_length 8 YGG_MSG_MAX),
    bytesToNatLE_natToBytesLE 8 YGG_MSG_MAX
      (by rw [pow_256_8]; norm_num [YGG_MSG_MAX])]
  rw [if_pos ⟨natToBytesLE_length 8 YGG_MSG_MAX, hlen⟩]
  simp [hrec]

theorem recvChunks_chunkEncode_aux (n : Nat) :
    ∀ (p : List Nat) (q : List (List Nat)), p.length = n →
      recvChunks (chunkEncode p ++ q) = some (p, q) := by
  induction n using Nat.strong_induction_on with
  | _ n ih =>
    intro p q hn
    by_cases hle : p.length ≤ YGG_MSG_MAX
    · rw [chunkEncode, if_pos hle, List.cons_append, List.nil_append]
      exact recvChunks_cons_final p q
        (by simp only [YGG_MSG_MAX] at hle; omega)
    · rw [chunkEncode, if_neg hle, List.cons_append]
      have hlen : (p.take YGG_MSG_MAX).length = YGG_MSG_MAX := by
        simp only [List.length_take]
        omega
      have hd : (p.drop YGG_MSG_MAX).length < n := by
        subst hn
        simp only [List.length_drop, YGG_MSG_MAX] at *
        omega
      rw [recvChunks_cons_cont (p.take YGG_MSG_MAX) (p.drop YGG_MSG_MAX) _ q
        hlen (ih (p.drop YGG_MSG_MAX).length hd (p.drop YGG_MSG_MAX) q rfl)]
      rw [List.take_append_drop]

/-- Round trip of the chunked transfer strategy: reassembling the
chunked encoding of any payload (with any chunks queued after it)
returns the original payload. -/
theorem recvChunks_chunkEncode (p : List Nat) (q : List (List Nat)) :
    recvChunks (chunkEncode p ++ q) = some (p, q) :=
  recvChunks_chunkEncode_aux p.length p q rfl

theorem writeVals_map (vs : List FieldVal) (dests : List Dest)
    (hc : capsOk vs dests = true) :
    (writeVals vs dests).map Dest.val = vs.map some := by
  induction vs generalizing dests with
  | nil =>
    cases dests with
    | nil => rfl
    | cons d ds => simp [capsOk] at hc
  | cons v vs ih =>
    cases dests with
    | nil => simp [capsOk] at hc
    | cons d ds =>
      simp only [capsOk, Bool.and_eq_true] at hc
      simp only [writeVals, List.map_cons]
      rw [ih ds hc.2]

/-- Unpacking (in either mode) the packed bytes of a representable tuple
into sufficiently sized destinations fills every field, writes the tuple
into the destinations, and reports no error. -/
theorem unpackInto_pack (realloc : Bool) (heap : Nat) (d : List FieldKind)
    (vs : List FieldVal) (msg extra : List Nat) (dests : List Dest)
    (hr : representableList d vs = true) (hp : packList d vs = some msg)
    (hc : capsOk vs dests = true) :
    unpackInto realloc heap d (msg ++ extra) dests
      = ⟨d.length, writeVals vs dests, none⟩ := by
  induction d generalizing vs msg extra dests with
  | nil =>
    cases vs with
    | nil =>
      cases dests with
      | nil =>
        simp only [packList] at hp
        injection hp with hp
        subst hp
        rfl
      | cons dd ds => simp [capsOk] at hc
    | cons v vs => simp [representableList] at hr
  | cons k ks ih =>
    cases vs with
    | nil => simp [representableList] at hr
    | cons v vs =>
      cases dests with
      | nil => simp [capsOk] at hc
      | cons dd ds =>
        simp only [representableList, Bool.and_eq_true] at hr
        simp only [capsOk, Bool.and_eq_true, decide_eq_true_eq] at hc
        simp only [packList] at hp
        cases he : encodeField k v with
        | none => rw [he] at hp; exact absurd hp (by simp)
        | some p =>
          cases hps : packList ks vs with
          | none => rw [he, hps] at hp; exact absurd hp (by simp)
          | some ps =>
            rw [he, hps] at hp
            injection hp with hp
            subst hp
            simp only [unpackInto, List.append_assoc]
            rw [decodeField_encodeField k v p (ps ++ extra) hr.1 he]
            show (if fieldValSize v ≤ dd.cap then _ else _) = _
            rw [if_pos hc.1]
            rw [ih vs ps extra ds hr.2 hps hc.2]
            rfl

/-- C9: for every `YggOutput` endpoint state, argument count and argument
list, the formatted variadic `send` and the formatted variadic
`send_nolimit` are the same function: both invoke the identical
underlying operation `vyggSend` with identical arguments on identical
state and return equal results. -/
theorem c9_formatted_send_variants_identical (s : CommHandle) (nargs : Int)
    (args : List FieldVal) :
    YggOutput.send s nargs args = vyggSend s nargs args ∧
    YggOutput.send_nolimit s nargs args = vyggSend s nargs args ∧
    YggOutput.send s nargs args = YggOutput.send_nolimit s nargs args :=
  ⟨rfl, rfl, rfl⟩

/-- C10: `YggInput::recv` and `YggInput::recvRealloc` convert the signed
`nargs` to an unsigned count by reduction modulo `2^64` with no
validation, so for every negative `nargs` (in `int` range) the codec
receives `2^64 + nargs` as the argument count; `YggInput::recv_nolimit`
passes `nargs` to the codec as a signed int without this conversion. -/
theorem c10_negative_nargs_cast (s : CommHandle) (nargs : Int)
    (dests : List Dest) (hneg : nargs < 0)
    (hrange : -(2 ^ (31 : Nat) : Int) ≤ nargs) :
    (castIntToSizeT nargs : Int) = 2 ^ SIZE_T_BITS + nargs ∧
    YggInput.recv s nargs dests
      = vcommRecv s 0 (((2 : Int) ^ SIZE_T_BITS + nargs).toNat) dests ∧
    YggInput.recvRealloc s nargs dests
      = vcommRecv s 1 (((2 : Int) ^ SIZE_T_BITS + nargs).toNat) dests ∧
    YggInput.recv_nolimit s nargs dests = vyggRecv s 0 nargs dests := by
  have hp64 : (2 : Int) ^ SIZE_T_BITS = 18446744073709551616 := by
    norm_num [SIZE_T_BITS]
  have hr31 : (-2147483648 : Int) ≤ nargs := by
    have h31 : ((2 : Int) ^ (31 : Nat)) = 2147483648 := by norm_num
    rw [h31] at hrange
    exact hrange
  have h1 : nargs % (2 : Int) ^ SIZE_T_BITS = 2 ^ SIZE_T_BITS + nargs := by
    rw [hp64]
    omega
  have h2 : castIntToSizeT nargs = ((2 : Int) ^ SIZE_T_BITS + nargs).toNat := by
    rw [castIntToSizeT, h1]
  refine ⟨?_, ?_, ?_, rfl⟩
  · rw [h2, Int.toNat_of_nonneg (by rw [hp64]; omega)]
  · simp only [YggInput.recv, h2]
  · simp only [YggInput.recvRealloc, h2]

/-- C10 witness: at `nargs = -1` the hypotheses hold and the codec
receives `2^64 - 1` as the argument count. -/
theorem c10_witness :
    (-1 : Int) < 0 ∧ (-(2 ^ (31 : Nat) : Int) ≤ -1) ∧
    (castIntToSizeT (-1) : Int) = 2 ^ SIZE_T_BITS + (-1) := by
  refine ⟨by norm_num, by norm_num, ?_⟩
  exact (c10_negative_nargs_cast ⟨false, [], [], 0⟩ (-1) [] (by norm_num)
    (by norm_num)).1

/-- C8: on an Output endpoint in the Open state, `send_eof` transmits the
reserved EOF sentinel and leaves the endpoint Open: further sends are
still accepted by the state machine rather than failing with
`ChannelClosed`. -/
theorem c8_send_eof_remains_open (s : CommHandle) (hopen : s.closed = false) :
    YggOutput.send_eof s = (.ok 0, { s with queue := s.queue ++ [EOF_MSG] }) ∧
    ((YggOutput.send_eof s).2).closed = false ∧
    (∀ data : List Nat, data.length ≤ YGG_MSG_MAX →
      (YggOutput.send_raw (YggOutput.send_eof s).2 data).1 = .ok 0) := by
  have h : YggOutput.send_eof s
      = (.ok 0, { s with queue := s.queue ++ [EOF_MSG] }) := by
    simp [YggOutput.send_eof, ygg_send_eof, ygg_send, hopen, EOF_MSG,
      YGG_MSG_MAX]
  refine ⟨h, by rw [h]; exact hopen, ?_⟩
  intro data hd
  rw [h]
  simp only [YggOutput.send_raw, ygg_send]
  rw [if_neg (by simp [hopen]), if_neg (by omega)]

/-- C8 witness: on a concrete fresh Open endpoint, `send_eof` succeeds,
the endpoint stays Open, and a further send is accepted. -/
theorem c8_witness :
    (⟨false, [], [], 0⟩ : CommHandle).closed = false ∧
    ((YggOutput.send_eof ⟨false, [], [], 0⟩).2).closed = false ∧
    (YggOutput.send_raw (YggOutput.send_eof ⟨false, [], [], 0⟩).2 [7]).1
      = .ok 0 := by
  have h := c8_send_eof_remains_open ⟨false, [], [], 0⟩ rfl
  exact ⟨rfl, h.2.1, h.2.2 [7] (by norm_num [YGG_MSG_MAX])⟩

/-- C5: an RPC client call (or callRealloc) whose total argument count
does not equal the request descriptor's field count plus the response
descriptor's field count fails with `ArgumentCountMismatch` before any
transport activity: the session state and the transport counters are
returned unchanged. -/
theorem c5_argument_count_mismatch (s : RpcHandles) (env : CallEnv)
    (nargs : Int) (args : List FieldVal) (dests : List Dest)
    (h : nargs ≠ (s.out_h.fmt.length : Int) + (s.in_h.fmt.length : Int)) :
    YggRpcClient.call s env nargs args dests
      = (.error .ArgumentCountMismatch, s, env) ∧
    YggRpcClient.callRealloc s env nargs args dests
      = (.error .ArgumentCountMismatch, s, env) := by
  constructor <;>
    simp only [YggRpcClient.call, YggRpcClient.callRealloc, vrpcCall,
      vrpcCallRealloc, vrpcCallCore, if_pos h]

/-- C5 witness: a concrete call with 5 arguments against a 1-field
request and 0-field response descriptor fails with
`ArgumentCountMismatch`, with session and transport state unchanged. -/
theorem c5_witness :
    ((5 : Int) ≠ ((1 : Nat) : Int) + ((0 : Nat) : Int)) ∧
    YggRpcClient.call ⟨⟨false, [.intK], [], 0⟩, ⟨false, [], [], 0⟩⟩
        ⟨none, none, 0, 0⟩ 5 [.intV 1] []
      = (.error .ArgumentCountMismatch,
         ⟨⟨false, [.intK], [], 0⟩, ⟨false, [], [], 0⟩⟩,
         ⟨none, none, 0, 0⟩) := by
  refine ⟨by norm_num, ?_⟩
  exact (c5_argument_count_mismatch ⟨⟨false, [.intK], [], 0⟩,
    ⟨false, [], [], 0⟩⟩ ⟨none, none, 0, 0⟩ 5 [.intV 1] [] (by norm_num)).1

/-- C3: teardown of a channel handle is idempotent — an explicit
`_destroy_pi` releases the resource once, and a subsequent destructor
call (or any second teardown) performs no further release; after
teardown, every operation on the handle (raw and formatted send and
receive, bounded and unbounded) fails with `ChannelClosed` without
touching the released resource. -/
theorem c3_idempotent_teardown (s : CommHandle) (h : s.closed = false) :
    (YggInput.destroy_pi s).2 = 1 ∧
    (YggInput.destructor (YggInput.destroy_pi s).1).2 = 0 ∧
    (YggInput.destroy_pi (YggInput.destroy_pi s).1).2 = 0 ∧
    (YggOutput.destroy_pi s).2 = 1 ∧
    (YggOutput.destructor (YggOutput.destroy_pi s).1).2 = 0 ∧
    (∀ data, ygg_send (YggInput.destroy_pi s).1 data
      = (.error .ChannelClosed, (YggInput.destroy_pi s).1)) ∧
    (∀ len, ygg_recv (YggInput.destroy_pi s).1 len
      = (.error .ChannelClosed, (YggInput.destroy_pi s).1)) ∧
    (∀ data, ygg_send_nolimit (YggInput.destroy_pi s).1 data
      = (.error .ChannelClosed, (YggInput.destroy_pi s).1)) ∧
    (ygg_recv_nolimit (YggInput.destroy_pi s).1
      = (.error .ChannelClosed, (YggInput.destroy_pi s).1)) ∧
    (∀ n args, vyggSend (YggInput.destroy_pi s).1 n args
      = (.error .ChannelClosed, (YggInput.destroy_pi s).1)) ∧
    (∀ r n dests, (vcommRecv (YggInput.destroy_pi s).1 r n dests).1.err
      = some .ChannelClosed) ∧
    (∀ r n dests, (vyggRecv (YggInput.destroy_pi s).1 r n dests).1.err
      = some .ChannelClosed) := by
  have hd : YggInput.destroy_pi s = ({ s with closed := true }, 1) := by
    simp [YggInput.destroy_pi, ygg_free, h]
  have hd2 : YggOutput.destroy_pi s = ({ s with closed := true }, 1) := by
    simp [YggOutput.destroy_pi, ygg_free, h]
  rw [hd, hd2]
  simp [YggInput.destructor, YggInput.destroy_pi, YggOutput.destructor,
    YggOutput.destroy_pi, ygg_free, ygg_send, ygg_recv, ygg_send_nolimit,
    ygg_recv_nolimit, vyggSend, vcommRecv, vyggRecv]

/-- C3 witness: a concrete fresh handle torn down twice releases the
resource once, and a send after teardown fails with `ChannelClosed`. -/
theorem c3_witness :
    (⟨false, [], [], 0⟩ : CommHandle).closed = false ∧
    (YggInput.destroy_pi ⟨false, [], [], 0⟩).2 = 1 ∧
    (YggInput.destructor (YggInput.destroy_pi ⟨false, [], [], 0⟩).1).2 = 0 ∧
    ygg_send (YggInput.destroy_pi ⟨false, [], [], 0⟩).1 [1]
      = (.error .ChannelClosed,
         (YggInput.destroy_pi ⟨false, [], [], 0⟩).1) := by
  have h := c3_idempotent_teardown ⟨false, [], [], 0⟩ rfl
  exact ⟨rfl, h.1, h.2.1, h.2.2.2.2.2.1 [1]⟩

/-- C2 counterexample: for a fresh `YggRpcServer` (and `YggRpcClient`)
session, the destructor chain applies `ygg_free` twice — the trace of
applications is `[false, true]`, i.e. the second application receives a
session whose handles are already released — contradicting the claim
that `ygg_free` is never applied to an already-released handle resource
during destruction. -/
theorem c2_counterexample :
    YggRpcServer.destructFreeTrace
        ⟨⟨false, [], [], 0⟩, ⟨false, [], [], 0⟩⟩ = [false, true] ∧
    YggRpcClient.destructFreeTrace
        ⟨⟨false, [], [], 0⟩, ⟨false, [], [], 0⟩⟩ = [false, true] := by
  constructor <;> rfl

/-- C2 (amended): destroying a `YggRpcServer` or `YggRpcClient` releases
each of its two underlying channel handles exactly once, although
`ygg_free` is applied twice during destruction (once by the derived
destructor body and once by the base `~YggRpc`): the second application
receives the already-released handles and performs zero further
releases, because each handle records that release already occurred. -/
theorem c2_destruct_releases_each_handle_once (s : RpcHandles)
    (ho : s.out_h.closed = false) (hi : s.in_h.closed = false) :
    (YggRpcServer.destruct s).2 = (1, 1) ∧
    (YggRpcClient.destruct s).2 = (1, 1) ∧
    YggRpcServer.destructFreeTrace s = [false, true] ∧
    YggRpcClient.destructFreeTrace s = [false, true] := by
  simp [YggRpcServer.destruct, YggRpcClient.destruct,
    YggRpcServer.destructFreeTrace, YggRpcClient.destructFreeTrace,
    YggRpc.destroy_pi, ygg_free_rpc, ygg_free, RpcHandles.released, ho, hi]

/-- C2 witness: a concrete fresh session's destruction releases each of
the two handles exactly once. -/
theorem c2_witness :
    ((⟨⟨false, [], [], 0⟩, ⟨false, [], [], 0⟩⟩ : RpcHandles).out_h.closed
        = false) ∧
    (YggRpcServer.destruct ⟨⟨false, [], [], 0⟩, ⟨false, [], [], 0⟩⟩).2
        = (1, 1) ∧
    (YggRpcClient.destruct ⟨⟨false, [], [], 0⟩, ⟨false, [], [], 0⟩⟩).2
        = (1, 1) := by
  have h := c2_destruct_releases_each_handle_once
    ⟨⟨false, [], [], 0⟩, ⟨false, [], [], 0⟩⟩ rfl rfl
  exact ⟨rfl, h.1, h.2.1⟩

/-- C7: on an open endpoint, the bounded send succeeds exactly when the
payload length is at most `YGG_MSG_MAX` and fails with a hard
`MessageTooLarge` (state unchanged, nothing sent) when it exceeds the
limit; a payload one byte over the limit is transferable via the
unbounded path, whose chunked transfer reassembles to bytes equal to the
original payload. -/
theorem c7_bounded_unbounded_transfer (s : CommHandle) (data : List Nat)
    (hopen : s.closed = false) :
    (data.length ≤ YGG_MSG_MAX →
      YggOutput.send_raw s data
        = (.ok 0, { s with queue := s.queue ++ [data] })) ∧
    (YGG_MSG_MAX < data.length →
      YggOutput.send_raw s data = (.error .MessageTooLarge, s)) ∧
    (data.length = YGG_MSG_MAX + 1 →
      (YggOutput.send_raw s data).1 = .error .MessageTooLarge) ∧
    (s.queue = [] →
      YggOutput.send_nolimit_raw s data
        = (.ok 0, { s with queue := chunkEncode data }) ∧
      YggInput.recv_nolimit_raw { s with queue := chunkEncode data }
        = (.ok data, { s with queue := [] })) := by
  refine ⟨?_, ?_, ?_, ?_⟩
  · intro hle
    simp only [YggOutput.send_raw, ygg_send]
    rw [if_neg (by simp [hopen]), if_neg (by omega)]
  · intro hgt
    simp only [YggOutput.send_raw, ygg_send]
    rw [if_neg (by simp [hopen]), if_pos hgt]
  · intro heq
    simp only [YggOutput.send_raw, ygg_send]
    rw [if_neg (by simp [hopen]), if_pos (by omega)]
  · intro hq
    constructor
    · simp only [YggOutput.send_nolimit_raw, ygg_send_nolimit]
      rw [if_neg (by simp [hopen]), hq, List.nil_append]
    · simp only [YggInput.recv_nolimit_raw, ygg_recv_nolimit]
      rw [if_neg (by simp [hopen])]
      have hre : recvChunks (chunkEncode data) = some (data, []) := by
        have := recvChunks_chunkEncode data []
        rwa [List.append_nil] at this
      rw [hre]

/-- C7 witness: at the concrete limit (64 bytes): a payload of exactly
the limit succeeds on the bounded path, one byte over fails with
`MessageTooLarge`, and that same payload reassembles exactly through the
unbounded path. -/
theorem c7_witness :
    (⟨false, [], [], 0⟩ : CommHandle).closed = false ∧
    (YggOutput.send_raw ⟨false, [], [], 0⟩ (List.replicate 64 7)).1
      = .ok 0 ∧
    (YggOutput.send_raw ⟨false, [], [], 0⟩ (List.replicate 65 7)).1
      = .error .MessageTooLarge ∧
    YggInput.recv_nolimit_raw
        ⟨false, [], chunkEncode (List.replicate 65 7), 0⟩
      = (.ok (List.replicate 65 7), ⟨false, [], [], 0⟩) := by
  have h64 := c7_bounded_unbounded_transfer ⟨false, [], [], 0⟩
    (List.replicate 64 7) rfl
  have h65 := c7_bounded_unbounded_transfer ⟨false, [], [], 0⟩
    (List.replicate 65 7) rfl
  refine ⟨rfl, ?_, ?_, ?_⟩
  · rw [h64.1 (by simp [YGG_MSG_MAX])]
  · rw [h65.2.1 (by simp [YGG_MSG_MAX])]
  · exact (h65.2.2.2 rfl).2

theorem vyggSend_open (s : CommHandle) (hcl : s.closed = false)
    (args : List FieldVal) (msg : List Nat)
    (hp : packList s.fmt args = some msg)
    (hfit : msg.length ≤ YGG_MSG_MAX) :
    vyggSend s ((args.length : Nat) : Int) args
      = (.ok 0, { s with queue := s.queue ++ [msg] }) := by
  simp only [vyggSend]
  rw [if_neg (by simp [hcl]), if_neg (by simp), hp]
  simp only [ygg_send]
  rw [if_neg (by simp [hcl]), if_neg (by omega)]

theorem vcommRecv_open_pop (s : CommHandle) (hcl : s.closed = false)
    (fl : Nat) (m : List Nat) (restQ : List (List Nat))
    (hq : s.queue = m :: restQ) (dests : List Dest) :
    vcommRecv s fl dests.length dests
      = (unpackInto (fl != 0) s.heap s.fmt m dests,
         { s with queue := restQ }) := by
  simp only [vcommRecv]
  rw [if_neg (by simp [hcl]), if_neg (by simp), hq]

theorem castIntToSizeT_natCast (n : Nat) (h : n < 2 ^ SIZE_T_BITS) :
    castIntToSizeT (n : Int) = n := by
  have h64 : (2 : Int) ^ SIZE_T_BITS = 18446744073709551616 := by
    norm_num [SIZE_T_BITS]
  have hn : n < 18446744073709551616 := by
    simpa [SIZE_T_BITS] using h
  rw [castIntToSizeT, h64]
  omega

/-- C1: round trip through the endpoints — formatted-sending a
representable tuple on an Output endpoint bound to descriptor `d`, then
performing a formatted receive of the resulting message on an Input
endpoint bound to `d`, yields values equal to the tuple; this holds for
every descriptor, hence for every supported field kind. -/
theorem c1_round_trip (d : List FieldKind) (vs : List FieldVal)
    (msg : List Nat) (outQ : List (List Nat)) (heap heap2 : Nat)
    (dests : List Dest)
    (hr : representableList d vs = true)
    (hp : packList d vs = some msg)
    (hfit : msg.length ≤ YGG_MSG_MAX)
    (hc : capsOk vs dests = true)
    (hn : dests.length < 2 ^ SIZE_T_BITS) :
    YggOutput.send ⟨false, d, outQ, heap⟩ ((vs.length : Nat) : Int) vs
      = (.ok 0, ⟨false, d, outQ ++ [msg], heap⟩) ∧
    (YggInput.recv ⟨false, d, [msg], heap2⟩ ((dests.length : Nat) : Int)
        dests).1
      = ⟨d.length, writeVals vs dests, none⟩ ∧
    (writeVals vs dests).map Dest.val = vs.map some := by
  refine ⟨?_, ?_, writeVals_map vs dests hc⟩
  · exact vyggSend_open ⟨false, d, outQ, heap⟩ rfl vs msg hp hfit
  · have hcast : castIntToSizeT ((dests.length : Nat) : Int) = dests.length :=
      castIntToSizeT_natCast dests.length hn
    show (vcommRecv ⟨false, d, [msg], heap2⟩ 0
      (castIntToSizeT ((dests.length : Nat) : Int)) dests).1 = _
    rw [hcast,
      vcommRecv_open_pop ⟨false, d, [msg], heap2⟩ rfl 0 msg [] rfl dests]
    show unpackInto false heap2 d msg dests = _
    calc unpackInto false heap2 d msg dests
        = unpackInto false heap2 d (msg ++ []) dests := by
          rw [List.append_nil]
      _ = ⟨d.length, writeVals vs dests, none⟩ :=
          unpackInto_pack false heap2 d vs msg [] dests hr hp hc

/-- C1 witness: a concrete two-field descriptor (integer and fixed text)
round trips through send and receive. -/
theorem c1_witness :
    representableList [.intK, .fixedText 2] [.intV 5, .textV [65, 66]]
        = true ∧
    packList [.intK, .fixedText 2] [.intV 5, .textV [65, 66]]
        = some [5, 0, 0, 0, 0, 0, 0, 0, 65, 66] ∧
    YggOutput.send ⟨false, [.intK, .fixedText 2], [], 3⟩ (2 : Int)
        [.intV 5, .textV [65, 66]]
      = (.ok 0, ⟨false, [.intK, .fixedText 2],
          [[5, 0, 0, 0, 0, 0, 0, 0, 65, 66]], 3⟩) ∧
    (YggInput.recv ⟨false, [.intK, .fixedText 2],
        [[5, 0, 0, 0, 0, 0, 0, 0, 65, 66]], 0⟩ (2 : Int)
        [⟨8, none⟩, ⟨2, none⟩]).1
      = ⟨2, [⟨8, some (.intV 5)⟩, ⟨2, some (.textV [65, 66])⟩], none⟩ := by
  have h := c1_round_trip [.intK, .fixedText 2] [.intV 5, .textV [65, 66]]
    [5, 0, 0, 0, 0, 0, 0, 0, 65, 66] [] 3 0 [⟨8, none⟩, ⟨2, none⟩]
    (by decide) (by decide) (by decide) (by decide) (by decide)
  exact ⟨by decide, by decide, h.1, h.2.1⟩

/-- C4: for an RPC client call, if the request send fails then the
response receive is never attempted (the receive-operation counter is
unchanged) and the call returns the send's failure status; if the send
succeeds and the receive fails, the call returns the receive's failure
status.  Both `call` and `callRealloc` behave this way. -/
theorem c4_rpc_call_failure_ordering (s : RpcHandles) (env : CallEnv)
    (args : List FieldVal) (dests : List Dest) (msg : List Nat)
    (hp : packList s.out_h.fmt args = some msg) :
    (∀ e, env.sendErr = some e →
      YggRpcClient.call s env
          ((s.out_h.fmt.length : Int) + (s.in_h.fmt.length : Int)) args dests
        = (.error e, s, { env with sendOps := env.sendOps + 1 }) ∧
      YggRpcClient.callRealloc s env
          ((s.out_h.fmt.length : Int) + (s.in_h.fmt.length : Int)) args dests
        = (.error e, s, { env with sendOps := env.sendOps + 1 })) ∧
    (∀ e, env.sendErr = none → env.recvErr = some e →
      s.out_h.closed = false → msg.length ≤ YGG_MSG_MAX →
      (YggRpcClient.call s env
          ((s.out_h.fmt.length : Int) + (s.in_h.fmt.length : Int)) args
          dests).1 = .error e ∧
      (YggRpcClient.callRealloc s env
          ((s.out_h.fmt.length : Int) + (s.in_h.fmt.length : Int)) args
          dests).1 = .error e) := by
  constructor
  · intro e hse
    constructor <;>
      simp [YggRpcClient.call, YggRpcClient.callRealloc, vrpcCall,
        vrpcCallRealloc, vrpcCallCore, hp, hse]
  · intro e hse hre hoc hlen
    have hnl : ¬ (YGG_MSG_MAX < msg.length) := by omega
    constructor <;>
      simp [YggRpcClient.call, YggRpcClient.callRealloc, vrpcCall,
        vrpcCallRealloc, vrpcCallCore, hp, hse, hre, hoc, hnl]

/-- C4 witness: on a concrete session, a forced send failure returns the
send's error with zero receive attempts, and a forced receive failure
after a successful send returns the receive's error. -/
theorem c4_witness :
    packList [.intK] [.intV 1] = some [1, 0, 0, 0, 0, 0, 0, 0] ∧
    YggRpcClient.call ⟨⟨false, [.intK], [], 0⟩, ⟨false, [], [], 0⟩⟩
        ⟨some .TransportFailure, none, 0, 0⟩ (1 : Int) [.intV 1] []
      = (.error .TransportFailure,
         ⟨⟨false, [.intK], [], 0⟩, ⟨false, [], [], 0⟩⟩,
         ⟨some .TransportFailure, none, 1, 0⟩) ∧
    (YggRpcClient.call ⟨⟨false, [.intK], [], 0⟩, ⟨false, [], [], 0⟩⟩
        ⟨none, some .TransportFailure, 0, 0⟩ (1 : Int) [.intV 1] []).1
      = .error .TransportFailure := by
  have h1 := c4_rpc_call_failure_ordering
    ⟨⟨false, [.intK], [], 0⟩, ⟨false, [], [], 0⟩⟩
    ⟨some .TransportFailure, none, 0, 0⟩ [.intV 1] []
    [1, 0, 0, 0, 0, 0, 0, 0] (by decide)
  have h2 := c4_rpc_call_failure_ordering
    ⟨⟨false, [.intK], [], 0⟩, ⟨false, [], [], 0⟩⟩
    ⟨none, some .TransportFailure, 0, 0⟩ [.intV 1] []
    [1, 0, 0, 0, 0, 0, 0, 0] (by decide)
  exact ⟨by decide, (h1.1 .TransportFailure rfl).1,
    (h2.2 .TransportFailure rfl rfl rfl (by decide)).1⟩

theorem natToBytesLE_mem_lt (k n : Nat) : ∀ x ∈ natToBytesLE k n, x < 256 := by
  induction k generalizing n with
  | zero => simp [natToBytesLE]
  | succ k ih =>
    intro x hx
    simp only [natToBytesLE, List.mem_cons] at hx
    rcases hx with h | h
    · omega
    · exact ih (n / 256) x h

theorem encodeField_mem_lt (k : FieldKind) (v : FieldVal) (p : List Nat)
    (he : encodeField k v = some p) : ∀ x ∈ p, x < 256 := by
  cases k <;> cases v <;>
      try (simp only [encodeField] at he; exact Option.noConfusion he)
  case intK.intV n =>
    simp only [encodeField] at he
    split at he
    · injection he with he
      subst he
      exact natToBytesLE_mem_lt 8 _
    · exact absurd he (by simp)
  case doubleK.doubleV bits =>
    simp only [encodeField] at he
    split at he
    · injection he with he
      subst he
      exact natToBytesLE_mem_lt 8 _
    · exact absurd he (by simp)
  case fixedText.textV w s =>
    simp only [encodeField] at he
    split at he
    next h =>
      injection he with he
      subst he
      exact h.2
    next => exact absurd he (by simp)
  case varBytes.bytesV b =>
    simp only [encodeField] at he
    split at he
    next h =>
      injection he with he
      subst he
      intro x hx
      rcases List.mem_append.mp hx with hx | hx
      · exact natToBytesLE_mem_lt 8 _ x hx
      · exact h.2 x hx
    next => exact absurd he (by simp)
  case arrayK.arrayV xs =>
    simp only [encodeField] at he
    split at he
    · injection he with he
      subst he
      intro x hx
      rcases List.mem_append.mp hx with hx | hx
      · exact natToBytesLE_mem_lt 8 _ x hx
      · rcases List.mem_flatMap.mp hx with ⟨y, _, hy⟩
        simp only [encodeIntLE] at hy
        exact natToBytesLE_mem_lt 8 _ x hy
    · exact absurd he (by simp)

theorem packList_mem_lt (d : List FieldKind) (vs : List FieldVal)
    (msg : List Nat) (hp : packList d vs = some msg) :
    ∀ x ∈ msg, x < 256 := by
  induction d generalizing vs msg with
  | nil =>
    cases vs with
    | nil =>
      simp only [packList] at hp
      injection hp with hp
      subst hp
      simp
    | cons v vs => simp [packList] at hp
  | cons k ks ih =>
    cases vs with
    | nil => simp [packList] at hp
    | cons v vs =>
      simp only [packList] at hp
      cases he : encodeField k v with
      | none => rw [he] at hp; exact absurd hp (by simp)
      | some p =>
        cases hps : packList ks vs with
        | none => rw [he, hps] at hp; exact absurd hp (by simp)
        | some ps =>
          rw [he, hps] at hp
          injection hp with hp
          subst hp
          intro x hx
          rcases List.mem_append.mp hx with hx | hx
          · exact encodeField_mem_lt k v p he x hx
          · exact ih vs ps hps x hx

/-- The modelled EOF sentinel is never producible by normal formatted
encoding: the codec emits only bytes below 256, while the sentinel
carries the out-of-alphabet tag 256 (spec §6 reservedness). -/
theorem packList_ne_EOF_MSG (d : List FieldKind) (vs : List FieldVal) :
    packList d vs ≠ some EOF_MSG := by
  intro h
  have := packList_mem_lt d vs EOF_MSG h 256 (by simp [EOF_MSG])
  omega

/-- Unpacking a message whose front packs a representable tuple into
sufficiently sized leading destinations fills those fields and continues
on the remaining descriptor, bytes and destinations: the result is the
tail unpack, shifted by the prefix (fields filled add up, prefix
destinations are written, the error is the tail's). -/
theorem unpackInto_front (r : Bool) (heap : Nat) (d₁ : List FieldKind)
    (vs₁ : List FieldVal) (m₁ : List Nat) (dests₁ : List Dest)
    (ktail : List FieldKind) (btail : List Nat) (dtail : List Dest)
    (hr : representableList d₁ vs₁ = true)
    (hp : packList d₁ vs₁ = some m₁)
    (hc : capsOk vs₁ dests₁ = true) :
    unpackInto r heap (d₁ ++ ktail) (m₁ ++ btail) (dests₁ ++ dtail)
      = ⟨d₁.length + (unpackInto r heap ktail btail dtail).filled,
         writeVals vs₁ dests₁ ++ (unpackInto r heap ktail btail dtail).dests,
         (unpackInto r heap ktail btail dtail).err⟩ := by
  induction d₁ generalizing vs₁ m₁ dests₁ with
  | nil =>
    cases vs₁ with
    | nil =>
      cases dests₁ with
      | nil =>
        simp only [packList] at hp
        injection hp with hp
        subst hp
        simp [writeVals]
      | cons dd ds => simp [capsOk] at hc
    | cons v vs => simp [representableList] at hr
  | cons k' ks ih =>
    cases vs₁ with
    | nil => simp [representableList] at hr
    | cons v' vs =>
      cases dests₁ with
      | nil => simp [capsOk] at hc
      | cons dd ds =>
        simp only [representableList, Bool.and_eq_true] at hr
        simp only [capsOk, Bool.and_eq_true, decide_eq_true_eq] at hc
        simp only [packList] at hp
        cases he : encodeField k' v' with
        | none => rw [he] at hp; exact absurd hp (by simp)
        | some p =>
          cases hps : packList ks vs with
          | none => rw [he, hps] at hp; exact absurd hp (by simp)
          | some ps =>
            rw [he, hps] at hp
            injection hp with hp
            subst hp
            simp only [List.cons_append, List.append_assoc, unpackInto]
            rw [decodeField_encodeField k' v' p (ps ++ btail) hr.1 he]
            show (if fieldValSize v' ≤ dd.cap then _ else _) = _
            rw [if_pos hc.1]
            simp only [List.append_eq]
            rw [ih vs ps ds hr.2 hps hc.2]
            simp only [writeVals, List.cons_append, List.length_cons,
              UnpackOut.mk.injEq, and_true, true_and]
            try omega

/-- C6: `YggInput::recv` performs a fixed-mode receive and
`YggInput::recvRealloc` a growable-mode receive, differing only in the
reallocation flag passed to the codec (0 versus 1); for a message whose
fields decode correctly up to a field whose decoded value exceeds its
destination's capacity: in fixed mode the receive yields
`BufferTooSmall`, decoding stops at that field, the count of fields
already filled is reported and the earlier destinations keep their
values; in growable mode the same destination is grown to the needed
size (its capacity updated) and decoding continues — the receive
succeeds when the remaining fields decode and fit; growth failure is
`AllocationError`, fatal to the call. -/
theorem c6_fixed_vs_growable (s : CommHandle)
    (d₁ : List FieldKind) (vs₁ : List FieldVal) (m₁ : List Nat)
    (dests₁ : List Dest) (k : FieldKind) (d₂ : List FieldKind)
    (b rest : List Nat) (v : FieldVal) (d0 : Dest) (ds₂ : List Dest)
    (restQ : List (List Nat))
    (hclosed : s.closed = false)
    (hfmt : s.fmt = d₁ ++ k :: d₂)
    (hq : s.queue = (m₁ ++ b) :: restQ)
    (hr₁ : representableList d₁ vs₁ = true)
    (hp₁ : packList d₁ vs₁ = some m₁)
    (hc₁ : capsOk vs₁ dests₁ = true)
    (hd : decodeField k b = some (v, rest))
    (hcap : d0.cap < fieldValSize v) :
    (∀ t n ds, YggInput.recv t n ds = vcommRecv t 0 (castIntToSizeT n) ds) ∧
    (∀ t n ds, YggInput.recvRealloc t n ds
      = vcommRecv t 1 (castIntToSizeT n) ds) ∧
    (vcommRecv s 0 (dests₁ ++ d0 :: ds₂).length (dests₁ ++ d0 :: ds₂)).1
      = ⟨d₁.length, writeVals vs₁ dests₁ ++ d0 :: ds₂,
         some .BufferTooSmall⟩ ∧
    (fieldValSize v ≤ s.heap →
      (vcommRecv s 1 (dests₁ ++ d0 :: ds₂).length (dests₁ ++ d0 :: ds₂)).1
        = ⟨d₁.length + 1 + (unpackInto true s.heap d₂ rest ds₂).filled,
           writeVals vs₁ dests₁ ++ ⟨fieldValSize v, some v⟩
             :: (unpackInto true s.heap d₂ rest ds₂).dests,
           (unpackInto true s.heap d₂ rest ds₂).err⟩) ∧
    (∀ vs₂ m₂ extra, representableList d₂ vs₂ = true →
      packList d₂ vs₂ = some m₂ → capsOk vs₂ ds₂ = true →
      rest = m₂ ++ extra → fieldValSize v ≤ s.heap →
      (vcommRecv s 1 (dests₁ ++ d0 :: ds₂).length (dests₁ ++ d0 :: ds₂)).1
        = ⟨d₁.length + 1 + d₂.length,
           writeVals vs₁ dests₁ ++ ⟨fieldValSize v, some v⟩
             :: writeVals vs₂ ds₂, none⟩) ∧
    (s.heap < fieldValSize v →
      (vcommRecv s 1 (dests₁ ++ d0 :: ds₂).length (dests₁ ++ d0 :: ds₂)).1
        = ⟨d₁.length, writeVals vs₁ dests₁ ++ d0 :: ds₂,
           some .AllocationError⟩) := by
  have hstep : ∀ fl : Nat,
      (vcommRecv s fl (dests₁ ++ d0 :: ds₂).length
        (dests₁ ++ d0 :: ds₂)).1
        = unpackInto (fl != 0) s.heap (d₁ ++ k :: d₂) (m₁ ++ b)
            (dests₁ ++ d0 :: ds₂) := by
    intro fl
    rw [vcommRecv_open_pop s hclosed fl (m₁ ++ b) restQ hq
      (dests₁ ++ d0 :: ds₂), hfmt]
  have hgrow : fieldValSize v ≤ s.heap →
      (vcommRecv s 1 (dests₁ ++ d0 :: ds₂).length (dests₁ ++ d0 :: ds₂)).1
        = ⟨d₁.length + 1 + (unpackInto true s.heap d₂ rest ds₂).filled,
           writeVals vs₁ dests₁ ++ ⟨fieldValSize v, some v⟩
             :: (unpackInto true s.heap d₂ rest ds₂).dests,
           (unpackInto true s.heap d₂ rest ds₂).err⟩ := by
    intro hh
    rw [hstep 1]
    show unpackInto true s.heap (d₁ ++ k :: d₂) (m₁ ++ b)
      (dests₁ ++ d0 :: ds₂) = _
    rw [unpackInto_front true s.heap d₁ vs₁ m₁ dests₁ (k :: d₂) b
      (d0 :: ds₂) hr₁ hp₁ hc₁]
    have hhead : unpackInto true s.heap (k :: d₂) b (d0 :: ds₂)
        = ⟨(unpackInto true s.heap d₂ rest ds₂).filled + 1,
           ⟨fieldValSize v, some v⟩
             :: (unpackInto true s.heap d₂ rest ds₂).dests,
           (unpackInto true s.heap d₂ rest ds₂).err⟩ := by
      simp only [unpackInto, hd]
      rw [if_neg (by omega), if_pos trivial, if_pos hh]
    rw [hhead]
    simp only [UnpackOut.mk.injEq, and_true, true_and]
    try omega
  refine ⟨fun t n ds => rfl, fun t n ds => rfl, ?_, hgrow, ?_, ?_⟩
  · rw [hstep 0]
    show unpackInto false s.heap (d₁ ++ k :: d₂) (m₁ ++ b)
      (dests₁ ++ d0 :: ds₂) = _
    rw [unpackInto_front false s.heap d₁ vs₁ m₁ dests₁ (k :: d₂) b
      (d0 :: ds₂) hr₁ hp₁ hc₁]
    have hhead : unpackInto false s.heap (k :: d₂) b (d0 :: ds₂)
        = ⟨0, d0 :: ds₂, some .BufferTooSmall⟩ := by
      simp only [unpackInto, hd]
      rw [if_neg (by omega)]
      simp
    rw [hhead]
    simp only [UnpackOut.mk.injEq, and_true, true_and]
    try omega
  · intro vs₂ m₂ extra hr₂ hp₂ hc₂ hrest hh
    rw [hgrow hh, hrest,
      unpackInto_pack true s.heap d₂ vs₂ m₂ extra ds₂ hr₂ hp₂ hc₂]
  · intro hh
    rw [hstep 1]
    show unpackInto true s.heap (d₁ ++ k :: d₂) (m₁ ++ b)
      (dests₁ ++ d0 :: ds₂) = _
    rw [unpackInto_front true s.heap d₁ vs₁ m₁ dests₁ (k :: d₂) b
      (d0 :: ds₂) hr₁ hp₁ hc₁]
    have hhead : unpackInto true s.heap (k :: d₂) b (d0 :: ds₂)
        = ⟨0, d0 :: ds₂, some .AllocationError⟩ := by
      simp only [unpackInto, hd]
      rw [if_neg (by omega), if_pos trivial, if_neg (by omega)]
    rw [hhead]
    simp only [UnpackOut.mk.injEq, and_true, true_and]
    try omega

/-- C6 witness: a three-field descriptor (int, 5-byte fixed text, int)
whose middle destination has capacity 0: fixed mode stops at the middle
field with `BufferTooSmall`, reports 1 field filled and keeps the first
destination's value; growable mode (heap 16) grows the middle
destination to capacity 5 and the whole receive succeeds with all 3
fields filled; with an exhausted allocator (heap 3) the call is fatal
with `AllocationError`, again after 1 field. -/
theorem c6_witness :
    decodeField (.fixedText 5) [1, 2, 3, 4, 5, 9, 0, 0, 0, 0, 0, 0, 0]
        = some (.textV [1, 2, 3, 4, 5], [9, 0, 0, 0, 0, 0, 0, 0]) ∧
    (vcommRecv ⟨false, [.intK, .fixedText 5, .intK],
        [[5, 0, 0, 0, 0, 0, 0, 0, 1, 2, 3, 4, 5, 9, 0, 0, 0, 0, 0, 0, 0]],
        16⟩ 0 3 [⟨8, none⟩, ⟨0, none⟩, ⟨8, none⟩]).1
      = ⟨1, [⟨8, some (.intV 5)⟩, ⟨0, none⟩, ⟨8, none⟩],
         some .BufferTooSmall⟩ ∧
    (vcommRecv ⟨false, [.intK, .fixedText 5, .intK],
        [[5, 0, 0, 0, 0, 0, 0, 0, 1, 2, 3, 4, 5, 9, 0, 0, 0, 0, 0, 0, 0]],
        16⟩ 1 3 [⟨8, none⟩, ⟨0, none⟩, ⟨8, none⟩]).1
      = ⟨3, [⟨8, some (.intV 5)⟩, ⟨5, some (.textV [1, 2, 3, 4, 5])⟩,
              ⟨8, some (.intV 9)⟩], none⟩ ∧
    (vcommRecv ⟨false, [.intK, .fixedText 5, .intK],
        [[5, 0, 0, 0, 0, 0, 0, 0, 1, 2, 3, 4, 5, 9, 0, 0, 0, 0, 0, 0, 0]],
        3⟩ 1 3 [⟨8, none⟩, ⟨0, none⟩, ⟨8, none⟩]).1
      = ⟨1, [⟨8, some (.intV 5)⟩, ⟨0, none⟩, ⟨8, none⟩],
         some .AllocationError⟩ := by
  have h16 := c6_fixed_vs_growable
    ⟨false, [.intK, .fixedText 5, .intK],
      [[5, 0, 0, 0, 0, 0, 0, 0, 1, 2, 3, 4, 5, 9, 0, 0, 0, 0, 0, 0, 0]],
      16⟩
    [.intK] [.intV 5] [5, 0, 0, 0, 0, 0, 0, 0] [⟨8, none⟩]
    (.fixedText 5) [.intK] [1, 2, 3, 4, 5, 9, 0, 0, 0, 0, 0, 0, 0]
    [9, 0, 0, 0, 0, 0, 0, 0] (.textV [1, 2, 3, 4, 5]) ⟨0, none⟩
    [⟨8, none⟩] []
    rfl rfl (by decide) (by decide) (by decide) (by decide) (by decide)
    (by decide)
  have h3 := c6_fixed_vs_growable
    ⟨false, [.intK, .fixedText 5, .intK],
      [[5, 0, 0, 0, 0, 0, 0, 0, 1, 2, 3, 4, 5, 9, 0, 0, 0, 0, 0, 0, 0]],
      3⟩
    [.intK] [.intV 5] [5, 0, 0, 0, 0, 0, 0, 0] [⟨8, none⟩]
    (.fixedText 5) [.intK] [1, 2, 3, 4, 5, 9, 0, 0, 0, 0, 0, 0, 0]
    [9, 0, 0, 0, 0, 0, 0, 0] (.textV [1, 2, 3, 4, 5]) ⟨0, none⟩
    [⟨8, none⟩] []
    rfl rfl (by decide) (by decide) (by decide) (by decide) (by decide)
    (by decide)
  exact ⟨by decide, h16.2.2.1,
    h16.2.2.2.2.1 [.intV 9] [9, 0, 0, 0, 0, 0, 0, 0] [] (by decide)
      (by decide) (by decide) (by decide) (by decide),
    h3.2.2.2.2.2 (by decide)⟩

end Ygg
